/-
Verification of the PerfStats performance-measurement utility
(perf_stats.py): a shallow embedding of the recorder state, the
start/end/record protocol, the trimmed-mean aggregation and the report
formatter, together with theorems settling the specified properties.

Modelling conventions:
* Python floats are modelled as rationals (ℚ); `time.perf_counter`
  readings enter each operation as explicit parameters.
* Python dicts are modelled as insertion-ordered association lists
  (a new key is appended at the end, an existing key is updated in
  place), matching CPython dict semantics.
* Each locked critical section of the source is one atomic operation of
  the model; concurrency is modelled as interleaving of such operations.
-/
import Mathlib

namespace PerfStats

/-! ### Association-list dictionaries -/

/-- Dict lookup: first (unique) binding of a key. -/
def alookup {α : Type} : List (String × α) → String → Option α
  | [], _ => none
  | (k', v) :: rest, k => if k' = k then some v else alookup rest k

/-- Dict store `d[k] = v`: update in place, else append at the end. -/
def storeKey : List (String × ℚ) → String → ℚ → List (String × ℚ)
  | [], k, v => [(k, v)]
  | (k', v') :: rest, k, v =>
    if k' = k then (k, v) :: rest else (k', v') :: storeKey rest k v

/-- Dict `d.pop(k)`: remove the binding of `k`. -/
def popKey (l : List (String × ℚ)) (k : String) : List (String × ℚ) :=
  l.filter (fun p => decide (p.1 ≠ k))

/-- `self._data[category][tag].append(v)` at the tag level: defaultdict
behaviour, a fresh tag starts an empty list and the value is appended. -/
def appendTag : List (String × List ℚ) → String → ℚ → List (String × List ℚ)
  | [], tag, v => [(tag, [v])]
  | (t, vs) :: rest, tag, v =>
    if t = tag then (t, vs ++ [v]) :: rest else (t, vs) :: appendTag rest tag v

/-- `self._data[category][tag].append(v)` at the category level. -/
def appendSample :
    List (String × List (String × List ℚ)) → String → String → ℚ →
      List (String × List (String × List ℚ))
  | [], cat, tag, v => [(cat, appendTag [] tag v)]
  | (c, tags) :: rest, cat, tag, v =>
    if c = cat then (c, appendTag tags tag v) :: rest
    else (c, tags) :: appendSample rest cat tag v

/-- The samples currently held by the `(cat, tag)` bucket. -/
def bucketOf (data : List (String × List (String × List ℚ)))
    (cat tag : String) : List ℚ :=
  (alookup ((alookup data cat).getD []) tag).getD []

/-! ### Recorder state and operations (class PerfStats) -/

/-- The mutable singleton state: `_data`, `_start_times`, `_enabled`. -/
structure State where
  data : List (String × List (String × List ℚ))
  start_times : List (String × ℚ)
  enabled : Bool
deriving DecidableEq

/-- The state right after `__init__`. -/
def initState : State := ⟨[], [], true⟩

/-- `enable()`. -/
def enable (st : State) : State := { st with enabled := true }

/-- `disable()`. -/
def disable (st : State) : State := { st with enabled := false }

/-- `init()`: clears `_data` and `_start_times` (the flag is untouched). -/
def init (st : State) : State := { st with data := [], start_times := [] }

/-- `deinit()`: the source simply calls `self.init()`. -/
def deinit (st : State) : State := init st

/-- The key built by `start_record`:
`f"{category}::{tag}::{threading.get_ident()}::{time.perf_counter()}"`,
with the thread ident a natural number and the clock reading a rational. -/
def startKey (cat tag : String) (tid : Nat) (t : ℚ) : String :=
  cat ++ "::" ++ tag ++ "::" ++ toString tid ++ "::" ++ toString t

/-- `start_record(category, tag)`.  The source reads the clock twice:
once inside the f-string for the key (`tKey`) and once for the stored
start instant (`tStore`); the thread ident is `tid`. -/
def start_record (st : State) (cat tag : String) (tid : Nat)
    (tKey tStore : ℚ) : Option String × State :=
  if st.enabled = false then (none, st)
  else
    let key := startKey cat tag tid tKey
    (some key, { st with start_times := storeKey st.start_times key tStore })

/-- `end_record(category, tag, key=None)` with clock reading `tEnd`.
Mirrors `if key and key in self._start_times:`: a `None` or empty key,
or a key not in `_start_times`, falls into the silent `pass` branch;
otherwise the key is popped and `end − start` is appended to the bucket
of the caller-supplied `(category, tag)`. -/
def end_record (st : State) (cat tag : String) (key : Option String)
    (tEnd : ℚ) : State :=
  if st.enabled = false then st
  else
    match key with
    | none => st
    | some k =>
      if k = "" then st
      else
        match alookup st.start_times k with
        | none => st
        | some tStart =>
          { st with
            start_times := popKey st.start_times k,
            data := appendSample st.data cat tag (tEnd - tStart) }

/-- `record_value(category, tag, elapsed_seconds)`. -/
def record_value (st : State) (cat tag : String) (v : ℚ) : State :=
  if st.enabled = false then st
  else { st with data := appendSample st.data cat tag v }

/-! ### Aggregation (get_stats) -/

/-- Python `min` over a non-empty sequence (fold of binary min). -/
def listMin : List ℚ → ℚ
  | [] => 0
  | x :: xs => xs.foldl min x

/-- Python `max` over a non-empty sequence (fold of binary max). -/
def listMax : List ℚ → ℚ
  | [] => 0
  | x :: xs => xs.foldl max x

/-- One bucket's aggregate record as built by `get_stats`. -/
structure Stat where
  count : Nat
  min : ℚ
  max : ℚ
  avg_filtered : ℚ
  avg_raw : ℚ
deriving DecidableEq

/-- The per-bucket computation of `get_stats`: count, extrema, trimmed
mean (`avg_filtered`, subtracting one min and one max when count > 2)
and raw mean. -/
def statsOf (values : List ℚ) : Stat :=
  let count := values.length
  let total := values.sum
  let mn := listMin values
  let mx := listMax values
  let avg :=
    if 2 < count then (total - mn - mx) / ((count - 2 : ℕ) : ℚ)
    else total / (count : ℚ)
  ⟨count, mn, mx, avg, total / (count : ℚ)⟩

/-- The per-category loop body of `get_stats`: empty buckets are
skipped (`if not values: continue`). -/
def tagStats (tags : List (String × List ℚ)) : List (String × Stat) :=
  tags.filterMap (fun p => if p.2 = [] then none else some (p.1, statsOf p.2))

/-- `get_stats()` with no category argument: every category of the
snapshot. -/
def get_stats_all (st : State) : List (String × List (String × Stat)) :=
  st.data.map (fun p => (p.1, tagStats p.2))

/-- `get_stats(category)`: only the requested category, and
`result.get(category, {})` when absent. -/
def get_stats_cat (st : State) (cat : String) : List (String × Stat) :=
  match alookup st.data cat with
  | none => []
  | some tags => tagStats tags

/-! ### Report formatting -/

/-- Python `f"{s:<w}"`: pad on the right with spaces to width `w`. -/
def padRight (s : String) (w : Nat) : String :=
  s ++ String.mk (List.replicate (w - s.length) ' ')

/-- Round a rational to the nearest integer, ties to even — the
rounding used by Python fixed-point formatting on exact values. -/
def roundHalfEven (q : ℚ) : ℤ :=
  let f := ⌊q⌋
  let r := q - (f : ℚ)
  if r < 1/2 then f
  else if 1/2 < r then f + 1
  else if f % 2 = 0 then f else f + 1

/-- Left-pad a digit string with zeros to 3 characters. -/
def zpad3 (s : String) : String :=
  String.mk (List.replicate (3 - s.length) '0') ++ s

/-- Python `f"{x:.3f}"` on the exact rational value `x`. -/
def fmt3 (x : ℚ) : String :=
  let n := roundHalfEven (x * 1000)
  (if n < 0 then "-" else "") ++
    toString (n.natAbs / 1000) ++ "." ++ zpad3 (toString (n.natAbs % 1000))

/-- `"=" * 80`. -/
def eqLine : String := String.mk (List.replicate 80 '=')

/-- `"-" * 80`. -/
def dashLine : String := String.mk (List.replicate 80 '-')

/-- The report's column-header line. -/
def headerRow : String :=
  padRight "Category" 15 ++ " | " ++ padRight "Tag" 15 ++ " | " ++
    padRight "Count" 6 ++ " | " ++ padRight "Avg(ms)" 8 ++ " | " ++
    padRight "Min(ms)" 8 ++ " | " ++ padRight "Max(ms)" 8

/-- One data row of the report: the Avg column renders
`stat['avg_filtered'] * 1000`, the Min/Max columns the extrema in ms. -/
def statRow (cat tag : String) (s : Stat) : String :=
  padRight cat 15 ++ " | " ++ padRight tag 15 ++ " | " ++
    padRight (toString s.count) 6 ++ " | " ++
    padRight (fmt3 (s.avg_filtered * 1000)) 8 ++ " | " ++
    padRight (fmt3 (s.min * 1000)) 8 ++ " | " ++
    padRight (fmt3 (s.max * 1000)) 8

/-- `_generate_report()`: border, header, separator, one row per
`(category, tag)` in snapshot order, border, joined by newlines.  This
is also the exact text written by `save_stats` and `print_stats`. -/
def generate_report (st : State) : String :=
  String.intercalate "\x0a"
    ([eqLine, headerRow, dashLine] ++
      (get_stats_all st).flatMap
        (fun p => p.2.map (fun q => statRow p.1 q.1 q.2)) ++
      [eqLine])

/-! ### Decimal-string helpers (to reason about the composite keys) -/

/-- Numeric value of a decimal digit character. -/
def charVal (c : Char) : Nat := c.toNat - 48

/-- Value of a most-significant-first digit string, with accumulator. -/
def valAux : Nat → List Char → Nat
  | a, [] => a
  | a, c :: cs => valAux (a * 10 + charVal c) cs

/-- `sub` occurs contiguously inside `l`. -/
def containsSub (l sub : List Char) : Prop := ∃ a b, l = a ++ sub ++ b

/-! ### Operation traces (linearized histories of locked sections) -/

/-- One recorder operation together with the clock readings it makes. -/
inductive Op where
  | startOp (cat tag : String) (tid : Nat) (tKey tStore : ℚ)
  | endOp (cat tag : String) (key : Option String) (tEnd : ℚ)
  | recordOp (cat tag : String) (v : ℚ)
  | enableOp
  | disableOp
  | resetOp
deriving DecidableEq

/-- Effect of one operation on the recorder state. -/
def runOp (st : State) : Op → State
  | .startOp cat tag tid tk ts => (start_record st cat tag tid tk ts).2
  | .endOp cat tag key te => end_record st cat tag key te
  | .recordOp cat tag v => record_value st cat tag v
  | .enableOp => enable st
  | .disableOp => disable st
  | .resetOp => init st

/-- Run a whole trace of operations. -/
def run (st : State) (ops : List Op) : State := ops.foldl runOp st

/-- The clock readings an operation makes, in program order. -/
def opTimes : Op → List ℚ
  | .startOp _ _ _ tk ts => [tk, ts]
  | .endOp _ _ _ te => [te]
  | _ => []

/-- All clock readings of a trace, in order. -/
def traceTimes (ops : List Op) : List ℚ := ops.flatMap opTimes

/-- Every directly submitted value in the trace is non-negative. -/
def recordsNonneg (ops : List Op) : Prop :=
  ∀ cat tag v, Op.recordOp cat tag v ∈ ops → 0 ≤ v

/-- Every sample in every bucket of the state is non-negative. -/
def samplesNonneg (st : State) : Prop :=
  ∀ p ∈ st.data, ∀ q ∈ p.2, ∀ v ∈ q.2, 0 ≤ v

/-- Every stored pending-start instant precedes every reading in `ts`. -/
def startsBefore (st : State) (ts : List ℚ) : Prop :=
  ∀ p ∈ st.start_times, ∀ r ∈ ts, p.2 ≤ r

/-! ### Interleaved scoped-timer threads (class PerfTimer) -/

/-- One thread of control running scoped timers: its ident, the key
held by a currently open `PerfTimer` (None outside any timer scope),
and how many timer scopes it still has to complete. -/
structure Thread where
  tid : Nat
  pending : Option String
  remaining : Nat
deriving DecidableEq

/-- Interleaving semantics of `N` threads running `with PerfTimer(cat,
tag)` scopes against one shared recorder: each step is one locked
critical section.  `start` is `PerfTimer.__enter__` (clock readings
`tk`, `ts` arbitrary), `finish` is `PerfTimer.__exit__`, calling
`end_record` with the key saved by the matching `__enter__`. -/
inductive Step (cat tag : String) :
    State × List Thread → State × List Thread → Prop where
  | start (st : State) (pre post : List Thread) (th : Thread) (tk ts : ℚ)
      (hp : th.pending = none) (hr : 0 < th.remaining) :
      Step cat tag (st, pre ++ th :: post)
        ((start_record st cat tag th.tid tk ts).2,
          pre ++ { th with pending := (start_record st cat tag th.tid tk ts).1 } :: post)
  | finish (st : State) (pre post : List Thread) (th : Thread) (k : String) (te : ℚ)
      (hp : th.pending = some k) :
      Step cat tag (st, pre ++ th :: post)
        (end_record st cat tag (some k) te,
          pre ++ { th with pending := none, remaining := th.remaining - 1 } :: post)

/-- Any finite interleaving of thread steps. -/
def Steps (cat tag : String) :
    State × List Thread → State × List Thread → Prop :=
  Relation.ReflTransGen (Step cat tag)

/-- Inductive invariant of the interleaving: the recorder stays
enabled; thread idents stay pairwise distinct; every open timer holds
its own thread's composite key, that key is still pending in
`_start_times`, and the thread still has work left; no thread exceeds
its `M` scopes; and the bucket holds one sample per completed scope
over its initial count `c0`.  `N` is the (constant) thread count. -/
def Inv (cat tag : String) (M c0 N : Nat) (cfg : State × List Thread) : Prop :=
  cfg.1.enabled = true ∧
  (cfg.2.map Thread.tid).Nodup ∧
  (∀ th ∈ cfg.2, ∀ k, th.pending = some k →
    (∃ t, k = startKey cat tag th.tid t) ∧
    alookup cfg.1.start_times k ≠ none ∧ 1 ≤ th.remaining) ∧
  (∀ th ∈ cfg.2, th.remaining ≤ M) ∧
  (bucketOf cfg.1.data cat tag).length =
    c0 + (cfg.2.map (fun th => M - th.remaining)).sum ∧
  cfg.2.length = N

/-! ### Lemmas about Python min/max (fold of binary min/max) -/

theorem foldl_min_le_init (xs : List ℚ) : ∀ a : ℚ, xs.foldl min a ≤ a := by
  induction xs with
  | nil => intro a; exact le_refl a
  | cons x xs ih => intro a; exact le_trans (ih (min a x)) (min_le_left a x)

theorem foldl_min_le_mem (xs : List ℚ) :
    ∀ a x, x ∈ xs → xs.foldl min a ≤ x := by
  induction xs with
  | nil => intro a x hx; cases hx
  | cons y ys ih =>
    intro a x hx
    rcases List.mem_cons.mp hx with rfl | hx
    · exact le_trans (foldl_min_le_init ys (min a x)) (min_le_right a x)
    · exact ih (min a y) x hx

theorem foldl_min_choice (xs : List ℚ) :
    ∀ a : ℚ, xs.foldl min a = a ∨ xs.foldl min a ∈ xs := by
  induction xs with
  | nil => intro a; exact Or.inl rfl
  | cons y ys ih =>
    intro a
    rcases ih (min a y) with h | h
    · rcases min_choice a y with h' | h'
      · exact Or.inl (by rw [List.foldl_cons, h, h'])
      · exact Or.inr (by rw [List.foldl_cons, h, h']; exact List.mem_cons_self y ys)
    · exact Or.inr (List.mem_cons_of_mem y h)

theorem init_le_foldl_max (xs : List ℚ) : ∀ a : ℚ, a ≤ xs.foldl max a := by
  induction xs with
  | nil => intro a; exact le_refl a
  | cons x xs ih => intro a; exact le_trans (le_max_left a x) (ih (max a x))

theorem mem_le_foldl_max (xs : List ℚ) :
    ∀ a x, x ∈ xs → x ≤ xs.foldl max a := by
  induction xs with
  | nil => intro a x hx; cases hx
  | cons y ys ih =>
    intro a x hx
    rcases List.mem_cons.mp hx with rfl | hx
    · exact le_trans (le_max_right a x) (init_le_foldl_max ys (max a x))
    · exact ih (max a y) x hx

theorem foldl_max_choice (xs : List ℚ) :
    ∀ a : ℚ, xs.foldl max a = a ∨ xs.foldl max a ∈ xs := by
  induction xs with
  | nil => intro a; exact Or.inl rfl
  | cons y ys ih =>
    intro a
    rcases ih (max a y) with h | h
    · rcases max_choice a y with h' | h'
      · exact Or.inl (by rw [List.foldl_cons, h, h'])
      · exact Or.inr (by rw [List.foldl_cons, h, h']; exact List.mem_cons_self y ys)
    · exact Or.inr (List.mem_cons_of_mem y h)

theorem listMin_mem {l : List ℚ} (h : l ≠ []) : listMin l ∈ l := by
  match l with
  | x :: xs =>
    rcases foldl_min_choice xs x with h1 | h1
    · rw [listMin, h1]; exact List.mem_cons_self x xs
    · rw [listMin]; exact List.mem_cons_of_mem x h1

theorem listMin_le {l : List ℚ} {x : ℚ} (hx : x ∈ l) : listMin l ≤ x := by
  match l with
  | y :: ys =>
    rcases List.mem_cons.mp hx with rfl | h
    · exact foldl_min_le_init ys x
    · exact foldl_min_le_mem ys y x h

theorem listMax_mem {l : List ℚ} (h : l ≠ []) : listMax l ∈ l := by
  match l with
  | x :: xs =>
    rcases foldl_max_choice xs x with h1 | h1
    · rw [listMax, h1]; exact List.mem_cons_self x xs
    · rw [listMax]; exact List.mem_cons_of_mem x h1

theorem le_listMax {l : List ℚ} {x : ℚ} (hx : x ∈ l) : x ≤ listMax l := by
  match l with
  | y :: ys =>
    rcases List.mem_cons.mp hx with rfl | h
    · exact init_le_foldl_max ys x
    · exact mem_le_foldl_max ys y x h

theorem listMin_le_listMax {l : List ℚ} (h : l ≠ []) :
    listMin l ≤ listMax l :=
  le_listMax (listMin_mem h)

/-! ### The trimmed bucket: erase one min and one max occurrence -/

theorem listMax_mem_erase {l : List ℚ} (h2 : 2 ≤ l.length) :
    listMax l ∈ l.erase (listMin l) := by
  have hne : l ≠ [] := by
    intro h; rw [h] at h2; simp at h2
  by_cases hmm : listMax l = listMin l
  · have hlen : 1 ≤ (l.erase (listMin l)).length := by
      rw [List.length_erase_of_mem (listMin_mem hne)]; omega
    obtain ⟨x, hx⟩ := List.exists_mem_of_length_pos (by omega : 0 < (l.erase (listMin l)).length)
    have hxl : x ∈ l := List.mem_of_mem_erase hx
    have : x = listMax l :=
      le_antisymm (le_listMax hxl) (hmm ▸ listMin_le hxl)
    rwa [← this]
  · exact (List.mem_erase_of_ne hmm).mpr (listMax_mem hne)

theorem trim_sum {l : List ℚ} (h2 : 2 ≤ l.length) :
    ((l.erase (listMin l)).erase (listMax l)).sum =
      l.sum - listMin l - listMax l := by
  have hne : l ≠ [] := by
    intro h; rw [h] at h2; simp at h2
  have e1 : l.sum = listMin l + (l.erase (listMin l)).sum := by
    have := (List.perm_cons_erase (listMin_mem hne)).sum_eq
    simpa using this
  have e2 : (l.erase (listMin l)).sum =
      listMax l + ((l.erase (listMin l)).erase (listMax l)).sum := by
    have := (List.perm_cons_erase (listMax_mem_erase h2)).sum_eq
    simpa using this
  rw [e1, e2]; ring

theorem trim_length {l : List ℚ} (h2 : 2 ≤ l.length) :
    ((l.erase (listMin l)).erase (listMax l)).length = l.length - 2 := by
  have hne : l ≠ [] := by
    intro h; rw [h] at h2; simp at h2
  rw [List.length_erase_of_mem (listMax_mem_erase h2),
    List.length_erase_of_mem (listMin_mem hne)]
  omega

/-! ### Field equations of statsOf -/

theorem statsOf_count (l : List ℚ) : (statsOf l).count = l.length := rfl

theorem statsOf_min (l : List ℚ) : (statsOf l).min = listMin l := rfl

theorem statsOf_max (l : List ℚ) : (statsOf l).max = listMax l := rfl

theorem statsOf_avg_raw (l : List ℚ) :
    (statsOf l).avg_raw = l.sum / (l.length : ℚ) := rfl

theorem statsOf_avg_filtered (l : List ℚ) :
    (statsOf l).avg_filtered =
      if 2 < l.length then
        (l.sum - listMin l - listMax l) / ((l.length - 2 : ℕ) : ℚ)
      else l.sum / (l.length : ℚ) := rfl

/-- C1: for every non-empty bucket, when the sample count exceeds 2 the
trimmed mean averages the samples left after erasing exactly one
occurrence of the minimum and one occurrence of the maximum (count − 2
samples remain); when the count is at most 2 it equals the raw mean;
and on the concrete buckets [0.001, 0.002, 0.003, 0.010] and
[0.01, 0.02] it yields the specified statistics. -/
theorem trimmed_mean_policy (l : List ℚ) (hne : l ≠ []) :
    (2 < l.length →
      (statsOf l).avg_filtered =
        ((l.erase (listMin l)).erase (listMax l)).sum /
          ((((l.erase (listMin l)).erase (listMax l)).length : ℕ) : ℚ) ∧
      ((l.erase (listMin l)).erase (listMax l)).length = l.length - 2) ∧
    (l.length ≤ 2 → (statsOf l).avg_filtered = (statsOf l).avg_raw) ∧
    (l = [1/1000, 2/1000, 3/1000, 10/1000] →
      statsOf l = ⟨4, 1/1000, 1/100, 1/400, 1/250⟩) ∧
    (l = [1/100, 2/100] →
      (statsOf l).avg_filtered = 3/200 ∧ (statsOf l).avg_raw = 3/200) := by
  refine ⟨?_, ?_, ?_, ?_⟩
  · intro h3
    have h2 : 2 ≤ l.length := by omega
    constructor
    · rw [statsOf_avg_filtered, if_pos h3, trim_sum h2, trim_length h2]
    · exact trim_length h2
  · intro h2
    rw [statsOf_avg_filtered, statsOf_avg_raw, if_neg (by omega)]
  · intro h; subst h
    simp only [statsOf, listMin, listMax, List.foldl, List.length, Stat.mk.injEq]
    norm_num [min_def, max_def]
  · intro h; subst h
    simp only [statsOf, listMin, listMax, List.foldl, List.length]
    norm_num

/-- Witness for C1 at the concrete four-sample bucket of the spec. -/
theorem trimmed_mean_policy_witness :
    statsOf [1/1000, 2/1000, 3/1000, 10/1000] = ⟨4, 1/1000, 1/100, 1/400, 1/250⟩ :=
  (trimmed_mean_policy [1/1000, 2/1000, 3/1000, 10/1000] (List.cons_ne_nil _ _)).2.2.1 rfl

/-- C10: for every non-empty bucket, both the raw mean and the trimmed
mean lie between the reported extrema. -/
theorem stats_bounds (l : List ℚ) (hne : l ≠ []) :
    (statsOf l).min ≤ (statsOf l).avg_raw ∧
    (statsOf l).avg_raw ≤ (statsOf l).max ∧
    (statsOf l).min ≤ (statsOf l).avg_filtered ∧
    (statsOf l).avg_filtered ≤ (statsOf l).max := by
  have hlen : 0 < l.length := List.length_pos.mpr hne
  have hn : (0 : ℚ) < (l.length : ℚ) := by exact_mod_cast hlen
  have hlow : (l.length : ℚ) * listMin l ≤ l.sum := by
    have := List.card_nsmul_le_sum l (listMin l) (fun x hx => listMin_le hx)
    simpa [nsmul_eq_mul] using this
  have hhigh : l.sum ≤ (l.length : ℚ) * listMax l := by
    have := List.sum_le_card_nsmul l (listMax l) (fun x hx => le_listMax hx)
    simpa [nsmul_eq_mul] using this
  have hraw1 : listMin l ≤ l.sum / (l.length : ℚ) := by
    rw [le_div_iff hn]; linarith
  have hraw2 : l.sum / (l.length : ℚ) ≤ listMax l := by
    rw [div_le_iff hn]; linarith
  refine ⟨by rw [statsOf_min, statsOf_avg_raw]; exact hraw1,
    by rw [statsOf_avg_raw, statsOf_max]; exact hraw2, ?_, ?_⟩ <;>
    rw [statsOf_avg_filtered] <;> by_cases h3 : 2 < l.length
  · rw [if_pos h3, statsOf_min]
    have h2 : 2 ≤ l.length := by omega
    have hne2 : l ≠ [] := hne
    have hcast : ((l.length - 2 : ℕ) : ℚ) = (l.length : ℚ) - 2 := by
      push_cast [Nat.cast_sub h2]; ring
    have hpos : (0 : ℚ) < (l.length : ℚ) - 2 := by
      have : (2 : ℚ) < (l.length : ℚ) := by exact_mod_cast h3
      linarith
    have e1 : l.sum = listMax l + (l.erase (listMax l)).sum := by
      have := (List.perm_cons_erase (listMax_mem hne)).sum_eq
      simpa using this
    have hlen1 : (l.erase (listMax l)).length = l.length - 1 :=
      List.length_erase_of_mem (listMax_mem hne)
    have hbound : ((l.length - 1 : ℕ) : ℚ) * listMin l ≤ (l.erase (listMax l)).sum := by
      have := List.card_nsmul_le_sum (l.erase (listMax l)) (listMin l)
        (fun x hx => listMin_le (List.mem_of_mem_erase hx))
      rw [hlen1] at this
      simpa [nsmul_eq_mul] using this
    have hcast1 : ((l.length - 1 : ℕ) : ℚ) = (l.length : ℚ) - 1 := by
      push_cast [Nat.cast_sub (by omega : 1 ≤ l.length)]; ring
    rw [hcast, le_div_iff hpos]
    rw [hcast1] at hbound
    have hmx : listMin l ≤ listMax l := listMin_le_listMax hne
    nlinarith [hbound, e1]
  · rw [if_neg h3, statsOf_min]; exact hraw1
  · rw [if_pos h3, statsOf_max]
    have h2 : 2 ≤ l.length := by omega
    have hcast : ((l.length - 2 : ℕ) : ℚ) = (l.length : ℚ) - 2 := by
      push_cast [Nat.cast_sub h2]; ring
    have hpos : (0 : ℚ) < (l.length : ℚ) - 2 := by
      have : (2 : ℚ) < (l.length : ℚ) := by exact_mod_cast h3
      linarith
    have e1 : l.sum = listMin l + (l.erase (listMin l)).sum := by
      have := (List.perm_cons_erase (listMin_mem hne)).sum_eq
      simpa using this
    have hlen1 : (l.erase (listMin l)).length = l.length - 1 :=
      List.length_erase_of_mem (listMin_mem hne)
    have hbound : (l.erase (listMin l)).sum ≤ ((l.length - 1 : ℕ) : ℚ) * listMax l := by
      have := List.sum_le_card_nsmul (l.erase (listMin l)) (listMax l)
        (fun x hx => le_listMax (List.mem_of_mem_erase hx))
      rw [hlen1] at this
      simpa [nsmul_eq_mul] using this
    have hcast1 : ((l.length - 1 : ℕ) : ℚ) = (l.length : ℚ) - 1 := by
      push_cast [Nat.cast_sub (by omega : 1 ≤ l.length)]; ring
    rw [hcast, div_le_iff hpos]
    rw [hcast1] at hbound
    have hmx : listMin l ≤ listMax l := listMin_le_listMax hne
    nlinarith [hbound, e1]
  · rw [if_neg h3, statsOf_max]; exact hraw2

/-- Witness for C10 at the concrete four-sample bucket of the spec. -/
theorem stats_bounds_witness :
    (statsOf [1/1000, 2/1000, 3/1000, 10/1000]).min ≤
        (statsOf [1/1000, 2/1000, 3/1000, 10/1000]).avg_raw ∧
      (statsOf [1/1000, 2/1000, 3/1000, 10/1000]).avg_raw ≤
        (statsOf [1/1000, 2/1000, 3/1000, 10/1000]).max ∧
      (statsOf [1/1000, 2/1000, 3/1000, 10/1000]).min ≤
        (statsOf [1/1000, 2/1000, 3/1000, 10/1000]).avg_filtered ∧
      (statsOf [1/1000, 2/1000, 3/1000, 10/1000]).avg_filtered ≤
        (statsOf [1/1000, 2/1000, 3/1000, 10/1000]).max :=
  stats_bounds [1/1000, 2/1000, 3/1000, 10/1000] (List.cons_ne_nil _ _)

/-! ### Dictionary lemmas -/

theorem alookup_storeKey_self (l : List (String × ℚ)) (k : String) (v : ℚ) :
    alookup (storeKey l k v) k = some v := by
  induction l with
  | nil => simp [storeKey, alookup]
  | cons p rest ih =>
    by_cases h : p.1 = k
    · simp [storeKey, h, alookup]
    · simp [storeKey, h, alookup, ih]

theorem alookup_storeKey_ne (l : List (String × ℚ)) (k k' : String) (v : ℚ)
    (hne : k' ≠ k) : alookup (storeKey l k v) k' = alookup l k' := by
  have hkk : ¬k = k' := fun h => hne h.symm
  induction l with
  | nil => simp [storeKey, alookup, hkk]
  | cons p rest ih =>
    by_cases h : p.1 = k
    · subst h
      simp [storeKey, alookup, hkk]
    · simp only [storeKey, if_neg h]
      by_cases h' : p.1 = k'
      · simp [alookup, h']
      · simp [alookup, h', ih]

theorem alookup_popKey_self (l : List (String × ℚ)) (k : String) :
    alookup (popKey l k) k = none := by
  induction l with
  | nil => simp [popKey, alookup]
  | cons p rest ih =>
    by_cases h : p.1 = k
    · simpa [popKey, List.filter, h] using ih
    · simpa [popKey, List.filter, h, alookup] using ih

theorem alookup_popKey_ne (l : List (String × ℚ)) (k k' : String)
    (hne : k' ≠ k) : alookup (popKey l k) k' = alookup l k' := by
  have hkk : ¬k = k' := fun h => hne h.symm
  induction l with
  | nil => simp [popKey, alookup]
  | cons p rest ih =>
    simp only [popKey, ne_eq, decide_not] at ih ⊢
    rw [List.filter_cons]
    by_cases h : p.1 = k
    · have hd : (!decide (p.1 = k)) = false := by simp [h]
      have h' : ¬p.1 = k' := fun hh => hne (hh.symm.trans h)
      simp [hd, alookup, h', ih]
    · have hd : (!decide (p.1 = k)) = true := by simp [h]
      by_cases h' : p.1 = k'
      · simp [hd, alookup, h', hne]
      · simp [hd, alookup, h', ih]

/-- An `end_record` that takes the recording branch, unfolded. -/
theorem end_record_found (st : State) (cat tag k : String) (ts te : ℚ)
    (hen : st.enabled = true) (hne : k ≠ "")
    (hk : alookup st.start_times k = some ts) :
    end_record st cat tag (some k) te =
      { st with
        start_times := popKey st.start_times k,
        data := appendSample st.data cat tag (te - ts) } := by
  simp [end_record, hen, hne, hk]

/-- An `end_record` whose key is not pending, unfolded. -/
theorem end_record_missing (st : State) (cat tag k : String) (te : ℚ)
    (hk : alookup st.start_times k = none) :
    end_record st cat tag (some k) te = st := by
  by_cases hen : st.enabled = false
  · simp [end_record, hen]
  · by_cases hne : k = ""
    · simp [end_record, hen, hne]
    · simp [end_record, hen, hne, hk]

/-- C8: `deinit` is the very same operation as `init`; the result has
empty buckets and empty pending starts (only the enabled flag
survives), so an all-categories `get_stats` of it is empty.  Both
operations are total functions, so neither can fail. -/
theorem deinit_eq_init (st : State) :
    deinit st = init st ∧ (init st).data = [] ∧
    (init st).start_times = [] ∧ (init st).enabled = st.enabled ∧
    get_stats_all (init st) = [] :=
  ⟨rfl, rfl, rfl, rfl, rfl⟩

/-- C5: while the recorder is disabled, `start_record` returns no token
and leaves the state untouched, and `end_record` and `record_value`
leave the state untouched; `enable`/`disable` (on any state) change
only the flag, never the buckets or the pending starts. -/
theorem disabled_noop (st : State) (cat tag : String) (tid : Nat)
    (tk ts te v : ℚ) (key : Option String)
    (hdis : st.enabled = false) :
    start_record st cat tag tid tk ts = (none, st) ∧
    end_record st cat tag key te = st ∧
    record_value st cat tag v = st ∧
    (∀ st' : State,
      (enable st').data = st'.data ∧
      (enable st').start_times = st'.start_times ∧
      (enable st').enabled = true ∧
      (disable st').data = st'.data ∧
      (disable st').start_times = st'.start_times ∧
      (disable st').enabled = false) := by
  refine ⟨?_, ?_, ?_, fun st' => ⟨rfl, rfl, rfl, rfl, rfl, rfl⟩⟩ <;>
    simp [start_record, end_record, record_value, hdis]

/-- Witness for C5 on the freshly disabled initial state. -/
theorem disabled_noop_witness :
    start_record (disable initState) "c" "t" 7 0 0 = (none, disable initState) ∧
    end_record (disable initState) "c" "t" (some "k") 1 = disable initState ∧
    record_value (disable initState) "c" "t" 1 = disable initState ∧
    (∀ st' : State,
      (enable st').data = st'.data ∧
      (enable st').start_times = st'.start_times ∧
      (enable st').enabled = true ∧
      (disable st').data = st'.data ∧
      (disable st').start_times = st'.start_times ∧
      (disable st').enabled = false) :=
  disabled_noop (disable initState) "c" "t" 7 0 0 1 1 (some "k") rfl

/-- C4: an `end_record` that records removes its token from the
pending starts and appends exactly its elapsed sample; a repeated
`end_record` with the same token, an `end_record` with any
never-pending token, and an `end_record` with a missing (`None`) token
all leave the state exactly unchanged. -/
theorem token_consumed_once (st : State) (cat tag k : String)
    (ts te : ℚ) (hen : st.enabled = true)
    (hk : alookup st.start_times k = some ts) (hne : k ≠ "") :
    alookup (end_record st cat tag (some k) te).start_times k = none ∧
    (end_record st cat tag (some k) te).data =
      appendSample st.data cat tag (te - ts) ∧
    (∀ (c t : String) (te2 : ℚ),
      end_record (end_record st cat tag (some k) te) c t (some k) te2 =
        end_record st cat tag (some k) te) ∧
    (∀ (st2 : State) (c t k2 : String) (te2 : ℚ),
      alookup st2.start_times k2 = none →
        end_record st2 c t (some k2) te2 = st2) ∧
    (∀ (st2 : State) (c t : String) (te2 : ℚ),
      end_record st2 c t none te2 = st2) := by
  rw [end_record_found st cat tag k ts te hen hne hk]
  refine ⟨alookup_popKey_self _ _, rfl, ?_, ?_, ?_⟩
  · intro c t te2
    exact end_record_missing _ c t k te2 (alookup_popKey_self _ _)
  · intro st2 c t k2 te2 h
    exact end_record_missing st2 c t k2 te2 h
  · intro st2 c t te2
    by_cases hen2 : st2.enabled = false <;> simp [end_record, hen2]

/-- Witness for C4 on a concrete single-pending-token state. -/
theorem token_consumed_once_witness :
    alookup (end_record ⟨[], [("k1", 0)], true⟩ "c" "t" (some "k1") 1).start_times "k1" = none ∧
    (end_record ⟨[], [("k1", 0)], true⟩ "c" "t" (some "k1") 1).data =
      appendSample (⟨[], [("k1", 0)], true⟩ : State).data "c" "t" (1 - 0) ∧
    (∀ (c t : String) (te2 : ℚ),
      end_record (end_record ⟨[], [("k1", 0)], true⟩ "c" "t" (some "k1") 1) c t (some "k1") te2 =
        end_record ⟨[], [("k1", 0)], true⟩ "c" "t" (some "k1") 1) ∧
    (∀ (st2 : State) (c t k2 : String) (te2 : ℚ),
      alookup st2.start_times k2 = none →
        end_record st2 c t (some k2) te2 = st2) ∧
    (∀ (st2 : State) (c t : String) (te2 : ℚ),
      end_record st2 c t none te2 = st2) :=
  token_consumed_once ⟨[], [("k1", 0)], true⟩ "c" "t" "k1" 0 1 rfl
    (by simp [alookup]) (by simp)

/-! ### C2: end_record uses the caller-supplied labels -/

theorem startKey_ne_empty (cat tag : String) (tid : Nat) (t : ℚ) :
    startKey cat tag tid t ≠ "" := by
  intro h
  have hlen := congrArg String.length h
  simp only [startKey, String.length_append] at hlen
  have h2 : ("::" : String).length = 2 := rfl
  have h0 : ("" : String).length = 0 := rfl
  simp only [h2, h0] at hlen
  omega

/-- A `start_record` on an enabled recorder, unfolded. -/
theorem start_record_enabled (st : State) (cat tag : String) (tid : Nat)
    (tk ts : ℚ) (hen : st.enabled = true) :
    start_record st cat tag tid tk ts =
      (some (startKey cat tag tid tk),
        { st with
          start_times := storeKey st.start_times (startKey cat tag tid tk) ts }) := by
  simp [start_record, hen]

/-- C2 counterexample: a token started under ("A", "x") and ended under
("B", "y") is not discarded — the sample lands in the ("B", "y")
bucket, so the claimed silent no-op on mismatched labels is false. -/
theorem end_record_mismatch_counterexample :
    (end_record (start_record initState "A" "x" 7 0 0).2 "B" "y"
        (start_record initState "A" "x" 7 0 0).1 1).data =
      [("B", [("y", [1])])] := by
  rw [start_record_enabled initState "A" "x" 7 0 0 rfl]
  rw [end_record_found _ "B" "y" _ 0 1 rfl (startKey_ne_empty _ _ _ _)
    (alookup_storeKey_self _ _ _)]
  have h10 : (1 : ℚ) - 0 = 1 := by norm_num
  simp [initState, storeKey, appendSample, appendTag, h10]

/-- C2 amended: for a pending token created by `start_record(cat',
tag')` on an enabled recorder, `end_record(cat, tag, token)` consumes
the token and appends the elapsed sample to the bucket of the
caller-supplied `(cat, tag)` — even when `(cat, tag) ≠ (cat', tag')`;
only an absent (never started or already consumed) or missing token
makes the call a silent no-op. -/
theorem end_record_caller_labels (st : State) (cat tag cat' tag' : String)
    (tid : Nat) (tk ts te : ℚ) (hen : st.enabled = true) :
    (start_record st cat' tag' tid tk ts).1 =
      some (startKey cat' tag' tid tk) ∧
    (end_record (start_record st cat' tag' tid tk ts).2 cat tag
        (some (startKey cat' tag' tid tk)) te).data =
      appendSample (start_record st cat' tag' tid tk ts).2.data cat tag
        (te - ts) := by
  rw [start_record_enabled st cat' tag' tid tk ts hen]
  refine ⟨rfl, ?_⟩
  show (end_record
      { st with
        start_times := storeKey st.start_times (startKey cat' tag' tid tk) ts }
      cat tag (some (startKey cat' tag' tid tk)) te).data =
    appendSample st.data cat tag (te - ts)
  rw [end_record_found
    { st with
      start_times := storeKey st.start_times (startKey cat' tag' tid tk) ts }
    cat tag (startKey cat' tag' tid tk) ts te hen
    (startKey_ne_empty cat' tag' tid tk)
    (alookup_storeKey_self st.start_times (startKey cat' tag' tid tk) ts)]

/-- Witness for C2's amended theorem on the initial state. -/
theorem end_record_caller_labels_witness :
    (start_record initState "A" "x" 7 0 0).1 =
      some (startKey "A" "x" 7 0) ∧
    (end_record (start_record initState "A" "x" 7 0 0).2 "B" "y"
        (some (startKey "A" "x" 7 0)) 1).data =
      appendSample (start_record initState "A" "x" 7 0 0).2.data "B" "y"
        (1 - 0) :=
  end_record_caller_labels initState "B" "y" "A" "x" 7 0 0 1 rfl

/-! ### Decimal rendering: correctness and injectivity -/

theorem charVal_digitChar {m : ℕ} (h : m < 10) :
    charVal (Nat.digitChar m) = m := by
  have hall : ∀ i : Fin 10, charVal (Nat.digitChar i.val) = i.val := by decide
  exact hall ⟨m, h⟩

theorem digitChar_isDigit {m : ℕ} (h : m < 10) :
    (Nat.digitChar m).isDigit = true := by
  have hall : ∀ i : Fin 10, (Nat.digitChar i.val).isDigit = true := by decide
  exact hall ⟨m, h⟩

theorem valAux_nil (a : ℕ) : valAux a [] = a := rfl

theorem valAux_cons (a : ℕ) (c : Char) (cs : List Char) :
    valAux a (c :: cs) = valAux (a * 10 + charVal c) cs := rfl

theorem valAux_acc (l : List Char) :
    ∀ a : ℕ, valAux a l = a * 10 ^ l.length + valAux 0 l := by
  induction l with
  | nil => intro a; simp [valAux_nil]
  | cons c cs ih =>
    intro a
    rw [valAux_cons, valAux_cons, ih (a * 10 + charVal c), ih (0 * 10 + charVal c)]
    simp [List.length_cons, pow_succ]
    ring

theorem toDigitsCore_val :
    ∀ (f n : ℕ) (acc : List Char), n < 10 ^ f →
      valAux 0 (Nat.toDigitsCore 10 f n acc) =
        n * 10 ^ acc.length + valAux 0 acc := by
  intro f
  induction f with
  | zero =>
    intro n acc hn
    have hn0 : n = 0 := by simp only [pow_zero] at hn; omega
    subst hn0
    simp [Nat.toDigitsCore, valAux_nil]
  | succ f ih =>
    intro n acc hn
    simp only [Nat.toDigitsCore]
    by_cases hz : n / 10 = 0
    · rw [if_pos hz]
      have h10 : n < 10 := by omega
      rw [valAux_cons, valAux_acc acc (0 * 10 + charVal (Nat.digitChar (n % 10)))]
      rw [charVal_digitChar (Nat.mod_lt n (by norm_num))]
      have : n % 10 = n := Nat.mod_eq_of_lt h10
      rw [this]
      ring
    · rw [if_neg hz]
      have hlt : n / 10 < 10 ^ f := by
        rw [Nat.div_lt_iff_lt_mul (by norm_num)]
        calc n < 10 ^ (f + 1) := hn
        _ = 10 ^ f * 10 := by rw [pow_succ]
      rw [ih (n / 10) (Nat.digitChar (n % 10) :: acc) hlt]
      rw [valAux_cons, valAux_acc acc (0 * 10 + charVal (Nat.digitChar (n % 10)))]
      rw [charVal_digitChar (Nat.mod_lt n (by norm_num))]
      have hsplit : n / 10 * 10 + n % 10 = n := by omega
      rw [List.length_cons, pow_succ]
      conv_rhs => rw [← hsplit]
      ring

theorem toDigitsCore_mem :
    ∀ (f n : ℕ) (acc : List Char) (c : Char),
      c ∈ Nat.toDigitsCore 10 f n acc → c.isDigit = true ∨ c ∈ acc := by
  intro f
  induction f with
  | zero => intro n acc c hc; exact Or.inr hc
  | succ f ih =>
    intro n acc c hc
    simp only [Nat.toDigitsCore] at hc
    by_cases hz : n / 10 = 0
    · rw [if_pos hz] at hc
      rcases List.mem_cons.mp hc with rfl | hc
      · exact Or.inl (digitChar_isDigit (Nat.mod_lt n (by norm_num)))
      · exact Or.inr hc
    · rw [if_neg hz] at hc
      rcases ih (n / 10) (Nat.digitChar (n % 10) :: acc) c hc with h | h
      · exact Or.inl h
      · rcases List.mem_cons.mp h with rfl | h
        · exact Or.inl (digitChar_isDigit (Nat.mod_lt n (by norm_num)))
        · exact Or.inr h

theorem toDigitsCore_ne_nil :
    ∀ (f n : ℕ) (acc : List Char), acc ≠ [] ∨ f ≠ 0 →
      Nat.toDigitsCore 10 f n acc ≠ [] := by
  intro f
  induction f with
  | zero =>
    intro n acc h
    rcases h with h | h
    · simpa [Nat.toDigitsCore] using h
    · exact absurd rfl h
  | succ f ih =>
    intro n acc _
    simp only [Nat.toDigitsCore]
    by_cases hz : n / 10 = 0
    · rw [if_pos hz]; exact List.cons_ne_nil _ _
    · rw [if_neg hz]
      exact ih (n / 10) (Nat.digitChar (n % 10) :: acc) (Or.inl (List.cons_ne_nil _ _))

theorem lt_pow_succ_self (n : ℕ) : n < 10 ^ (n + 1) := by
  calc n < 10 ^ n := Nat.lt_pow_self (by norm_num) n
    _ < 10 ^ (n + 1) := Nat.pow_lt_pow_succ (by norm_num)

theorem natRepr_data (n : ℕ) : (Nat.repr n).data = Nat.toDigits 10 n := rfl

theorem valAux_natRepr (n : ℕ) : valAux 0 (Nat.repr n).data = n := by
  rw [natRepr_data, Nat.toDigits]
  have h := toDigitsCore_val (n + 1) n [] (lt_pow_succ_self n)
  rw [h, valAux_nil]
  simp

theorem natRepr_inj {m n : ℕ} (h : Nat.repr m = Nat.repr n) : m = n := by
  have := congrArg (fun s => valAux 0 s.data) h
  simpa [valAux_natRepr] using this

theorem natRepr_mem_digit {n : ℕ} {c : Char} (hc : c ∈ (Nat.repr n).data) :
    c.isDigit = true := by
  rw [natRepr_data, Nat.toDigits] at hc
  rcases toDigitsCore_mem (n + 1) n [] c hc with h | h
  · exact h
  · cases h

theorem natRepr_ne_nil (n : ℕ) : (Nat.repr n).data ≠ [] := by
  rw [natRepr_data, Nat.toDigits]
  exact toDigitsCore_ne_nil (n + 1) n [] (Or.inr (Nat.succ_ne_zero n))

/-! ### Int and Rat rendering -/

theorem intToString_ofNat (n : ℕ) : toString (Int.ofNat n) = Nat.repr n := rfl

theorem intToString_negSucc (n : ℕ) :
    toString (Int.negSucc n) = "-" ++ Nat.repr (n + 1) := rfl

theorem intToString_mem {i : ℤ} {c : Char}
    (hc : c ∈ (toString i).data) : c.isDigit = true ∨ c = '-' := by
  match i with
  | Int.ofNat n =>
    rw [intToString_ofNat] at hc
    exact Or.inl (natRepr_mem_digit hc)
  | Int.negSucc n =>
    rw [intToString_negSucc, String.data_append] at hc
    rcases List.mem_append.mp hc with h | h
    · rcases List.mem_singleton.mp h with rfl
      exact Or.inr rfl
    · exact Or.inl (natRepr_mem_digit h)

theorem intToString_inj {i j : ℤ} (h : toString i = toString j) : i = j := by
  match i, j with
  | Int.ofNat m, Int.ofNat n =>
    rw [intToString_ofNat, intToString_ofNat] at h
    rw [natRepr_inj h]
  | Int.negSucc m, Int.negSucc n =>
    rw [intToString_negSucc, intToString_negSucc] at h
    have hd := congrArg String.data h
    simp only [String.data_append] at hd
    have : (Nat.repr (m + 1)).data = (Nat.repr (n + 1)).data :=
      List.append_cancel_left hd
    have : Nat.repr (m + 1) = Nat.repr (n + 1) := String.ext this
    have hmn := natRepr_inj this
    have hmn' : m = n := by omega
    rw [hmn']
  | Int.ofNat m, Int.negSucc n =>
    exfalso
    rw [intToString_ofNat, intToString_negSucc] at h
    have hd := congrArg String.data h
    simp only [String.data_append] at hd
    have hmem : '-' ∈ (Nat.repr m).data := by
      rw [hd]; exact List.mem_append_left _ (List.mem_singleton.mpr rfl)
    have := natRepr_mem_digit hmem
    simp at this
  | Int.negSucc m, Int.ofNat n =>
    exfalso
    rw [intToString_ofNat, intToString_negSucc] at h
    have hd := congrArg String.data h
    simp only [String.data_append] at hd
    have hmem : '-' ∈ (Nat.repr n).data := by
      rw [← hd]; exact List.mem_append_left _ (List.mem_singleton.mpr rfl)
    have := natRepr_mem_digit hmem
    simp at this

theorem ratToString_eq (q : ℚ) :
    toString q =
      if q.den = 1 then toString q.num
      else toString q.num ++ "/" ++ toString q.den := by
  show (if q.den = 1 then toString q.num
      else toString "" ++ toString q.num ++ toString "/" ++ toString q.den ++
        toString "") = _
  by_cases h : q.den = 1
  · rw [if_pos h, if_pos h]
  · rw [if_neg h, if_neg h]
    show "" ++ toString q.num ++ "/" ++ toString q.den ++ "" = _
    apply String.ext
    simp [String.data_append]

/-- Splitting a character list at a separator character that occurs in
neither left part is unambiguous. -/
theorem splitChar (c : Char) :
    ∀ (a1 a2 r1 r2 : List Char), c ∉ a1 → c ∉ a2 →
      a1 ++ c :: r1 = a2 ++ c :: r2 → a1 = a2 ∧ r1 = r2 := by
  intro a1
  induction a1 with
  | nil =>
    intro a2 r1 r2 _ h2 h
    match a2 with
    | [] => simpa using h
    | b :: bs =>
      exfalso
      simp only [List.nil_append, List.cons_append, List.cons.injEq] at h
      exact h2 (h.1 ▸ List.mem_cons_self b bs)
  | cons x xs ih =>
    intro a2 r1 r2 h1 h2 h
    match a2 with
    | [] =>
      exfalso
      simp only [List.nil_append, List.cons_append, List.cons.injEq] at h
      exact h1 (h.1.symm ▸ List.mem_cons_self x xs)
    | b :: bs =>
      simp only [List.cons_append, List.cons.injEq] at h
      obtain ⟨rfl, htail⟩ := h
      have hx1 : c ∉ xs := fun hm => h1 (List.mem_cons_of_mem _ hm)
      have hx2 : c ∉ bs := fun hm => h2 (List.mem_cons_of_mem _ hm)
      obtain ⟨he, hr⟩ := ih bs r1 r2 hx1 hx2 htail
      exact ⟨by rw [he], hr⟩

theorem slash_not_mem_intToString (i : ℤ) : '/' ∉ (toString i).data := by
  intro hmem
  rcases intToString_mem hmem with h | h
  · simp at h
  · simp at h

theorem ratToString_inj {q1 q2 : ℚ} (h : toString q1 = toString q2) :
    q1 = q2 := by
  rw [ratToString_eq, ratToString_eq] at h
  by_cases d1 : q1.den = 1 <;> by_cases d2 : q2.den = 1
  · rw [if_pos d1, if_pos d2] at h
    have hnum := intToString_inj h
    exact Rat.ext hnum (d1.trans d2.symm)
  · exfalso
    rw [if_pos d1, if_neg d2] at h
    have hd := congrArg String.data h
    simp only [String.data_append] at hd
    have hmem : '/' ∈ (toString q1.num).data := by
      rw [hd]
      refine List.mem_append_left _ (List.mem_append_right _ ?_)
      exact List.mem_singleton.mpr rfl
    exact slash_not_mem_intToString q1.num hmem
  · exfalso
    rw [if_neg d1, if_pos d2] at h
    have hd := congrArg String.data h
    simp only [String.data_append] at hd
    have hmem : '/' ∈ (toString q2.num).data := by
      rw [← hd]
      refine List.mem_append_left _ (List.mem_append_right _ ?_)
      exact List.mem_singleton.mpr rfl
    exact slash_not_mem_intToString q2.num hmem
  · rw [if_neg d1, if_neg d2] at h
    have hd := congrArg String.data h
    simp only [String.data_append, List.append_assoc, List.singleton_append] at hd
    obtain ⟨hnum, hden⟩ :=
      splitChar '/' (toString q1.num).data (toString q2.num).data
        (Nat.repr q1.den).data (Nat.repr q2.den).data
        (slash_not_mem_intToString q1.num) (slash_not_mem_intToString q2.num) hd
    have hnum' := intToString_inj (String.ext hnum)
    have hden' := natRepr_inj (String.ext hden)
    exact Rat.ext hnum' hden'

/-! ### C3: composite-key distinctness -/

theorem colon_not_mem_natRepr (n : ℕ) : ':' ∉ (Nat.repr n).data := by
  intro h
  exact absurd (natRepr_mem_digit h) (by decide)

/-- The composite key determines the thread-ident and clock-reading
components (for fixed category and tag). -/
theorem startKey_components (cat tag : String) {tid1 tid2 : ℕ} {t1 t2 : ℚ}
    (h : startKey cat tag tid1 t1 = startKey cat tag tid2 t2) :
    tid1 = tid2 ∧ t1 = t2 := by
  have hd := congrArg String.data h
  simp only [startKey, String.data_append, List.append_assoc, List.cons_append,
    List.nil_append] at hd
  have h1 := List.append_cancel_left hd
  simp only [List.cons.injEq, true_and] at h1
  have h2 := List.append_cancel_left h1
  simp only [List.cons.injEq, true_and] at h2
  obtain ⟨hdig, htail⟩ := splitChar ':' (toString tid1).data (toString tid2).data
    (':' :: (toString t1).data) (':' :: (toString t2).data)
    (colon_not_mem_natRepr tid1) (colon_not_mem_natRepr tid2) h2
  simp only [List.cons.injEq, true_and] at htail
  exact ⟨natRepr_inj (String.ext hdig), ratToString_inj (String.ext htail)⟩

/-- C3 counterexample: two start_record calls from the same thread of
control at the same clock instant with the same category and tag return
the very same token, and the second overwrites the first pending start:
after both calls a single pending entry remains. -/
theorem start_token_collision_counterexample :
    (start_record initState "c" "t" 7 0 0).1 =
      (start_record (start_record initState "c" "t" 7 0 0).2 "c" "t" 7 0 0).1 ∧
    (start_record (start_record initState "c" "t" 7 0 0).2
        "c" "t" 7 0 0).2.start_times.length = 1 := by
  rw [start_record_enabled initState "c" "t" 7 0 0 rfl]
  rw [start_record_enabled
    { initState with
      start_times := storeKey initState.start_times (startKey "c" "t" 7 0) 0 }
    "c" "t" 7 0 0 rfl]
  refine ⟨rfl, ?_⟩
  simp [initState, storeKey]

/-- C3 amended: the returned token encodes (category, tag, thread
ident, clock reading); for a fixed category and tag, two start_record
calls receive distinct tokens whenever their thread idents differ or
their key clock readings differ — in particular tokens of different
threads of control never collide, even at one shared instant — but two
calls from the same thread at the same clock reading return an
identical token (the preceding counterexample), so only then can one
pending start overwrite another. -/
theorem start_token_distinct (cat tag : String) (tid1 tid2 : ℕ) (t1 t2 : ℚ)
    (h : tid1 ≠ tid2 ∨ t1 ≠ t2) :
    startKey cat tag tid1 t1 ≠ startKey cat tag tid2 t2 := by
  intro he
  obtain ⟨htid, ht⟩ := startKey_components cat tag he
  rcases h with h | h
  · exact h htid
  · exact h ht

/-- Witness for C3's amended theorem: two concrete thread idents. -/
theorem start_token_distinct_witness :
    startKey "c" "t" 1 0 ≠ startKey "c" "t" 2 0 :=
  start_token_distinct "c" "t" 1 2 0 0 (Or.inl (by decide))

/-! ### C6: sample non-negativity -/

theorem mem_storeKey (l : List (String × ℚ)) (k : String) (v : ℚ) :
    ∀ p ∈ storeKey l k v, p = (k, v) ∨ p ∈ l := by
  induction l with
  | nil => intro p hp; simp [storeKey] at hp; exact Or.inl hp
  | cons q rest ih =>
    intro p hp
    by_cases h : q.1 = k
    · simp only [storeKey, if_pos h] at hp
      rcases List.mem_cons.mp hp with rfl | hp
      · exact Or.inl rfl
      · exact Or.inr (List.mem_cons_of_mem q hp)
    · simp only [storeKey, if_neg h] at hp
      rcases List.mem_cons.mp hp with rfl | hp
      · exact Or.inr (List.mem_cons_self q rest)
      · rcases ih p hp with h' | h'
        · exact Or.inl h'
        · exact Or.inr (List.mem_cons_of_mem q h')

theorem mem_popKey {l : List (String × ℚ)} {k : String} {p : String × ℚ}
    (hp : p ∈ popKey l k) : p ∈ l :=
  (List.mem_filter.mp hp).1

theorem alookup_mem {α : Type} :
    ∀ (l : List (String × α)) (k : String) (v : α),
      alookup l k = some v → (k, v) ∈ l := by
  intro l
  induction l with
  | nil => intro k v h; simp [alookup] at h
  | cons q rest ih =>
    intro k v h
    by_cases hq : q.1 = k
    · rw [alookup, if_pos hq] at h
      have hv : q.2 = v := Option.some.inj h
      have hqkv : q = (k, v) := by
        rw [Prod.ext_iff]
        exact ⟨hq, hv⟩
      rw [← hqkv]
      exact List.mem_cons_self q rest
    · rw [alookup, if_neg hq] at h
      exact List.mem_cons_of_mem q (ih k v h)

theorem appendTag_nonneg (tags : List (String × List ℚ)) (tag : String)
    (v0 : ℚ) (hv : 0 ≤ v0)
    (h : ∀ q ∈ tags, ∀ v ∈ q.2, 0 ≤ v) :
    ∀ q ∈ appendTag tags tag v0, ∀ v ∈ q.2, 0 ≤ v := by
  induction tags with
  | nil =>
    intro q hq v hvmem
    simp only [appendTag, List.mem_singleton] at hq
    subst hq
    simp only [List.mem_singleton] at hvmem
    exact hvmem ▸ hv
  | cons p rest ih =>
    intro q hq v hvmem
    by_cases hp : p.1 = tag
    · simp only [appendTag, if_pos hp] at hq
      rcases List.mem_cons.mp hq with rfl | hq
      · simp only [List.mem_append, List.mem_singleton] at hvmem
        rcases hvmem with hvm | rfl
        · exact h p (List.mem_cons_self p rest) v hvm
        · exact hv
      · exact h q (List.mem_cons_of_mem p hq) v hvmem
    · simp only [appendTag, if_neg hp] at hq
      rcases List.mem_cons.mp hq with rfl | hq
      · exact h p (List.mem_cons_self p rest) v hvmem
      · exact ih (fun q' hq' => h q' (List.mem_cons_of_mem p hq')) q hq v hvmem

theorem appendSample_nonneg (data : List (String × List (String × List ℚ)))
    (cat tag : String) (v0 : ℚ) (hv : 0 ≤ v0)
    (h : ∀ p ∈ data, ∀ q ∈ p.2, ∀ v ∈ q.2, 0 ≤ v) :
    ∀ p ∈ appendSample data cat tag v0, ∀ q ∈ p.2, ∀ v ∈ q.2, 0 ≤ v := by
  induction data with
  | nil =>
    intro p hp
    simp only [appendSample, List.mem_singleton] at hp
    subst hp
    exact appendTag_nonneg [] tag v0 hv (by intro q hq; cases hq)
  | cons r rest ih =>
    intro p hp
    by_cases hr : r.1 = cat
    · simp only [appendSample, if_pos hr] at hp
      rcases List.mem_cons.mp hp with rfl | hp
      · exact appendTag_nonneg r.2 tag v0 hv (h r (List.mem_cons_self r rest))
      · exact h p (List.mem_cons_of_mem r hp)
    · simp only [appendSample, if_neg hr] at hp
      rcases List.mem_cons.mp hp with rfl | hp
      · exact h r (List.mem_cons_self r rest)
      · exact ih (fun p' hp' => h p' (List.mem_cons_of_mem r hp')) p hp

/-- All possible outcomes of an `end_record` call. -/
theorem end_record_cases (st : State) (cat tag : String)
    (key : Option String) (te : ℚ) :
    end_record st cat tag key te = st ∨
    ∃ k ts, key = some k ∧ alookup st.start_times k = some ts ∧
      end_record st cat tag key te =
        { st with
          start_times := popKey st.start_times k,
          data := appendSample st.data cat tag (te - ts) } := by
  by_cases hen : st.enabled = false
  · exact Or.inl (by simp [end_record, hen])
  · match key with
    | none => exact Or.inl (by simp [end_record, hen])
    | some k =>
      by_cases hk0 : k = ""
      · exact Or.inl (by simp [end_record, hen, hk0])
      · cases hl : alookup st.start_times k with
        | none => exact Or.inl (by simp [end_record, hen, hk0, hl])
        | some ts =>
          exact Or.inr ⟨k, ts, rfl, hl, by simp [end_record, hen, hk0, hl]⟩

/-- C6 counterexample: `record_value` performs no validation, so a
negative submission is stored as a (negative) sample, refuting the
claim for sequences that contain a negative `record_value`. -/
theorem negative_sample_counterexample :
    bucketOf (record_value initState "c" "t" (-1)).data "c" "t" = [-1] ∧
    ¬(0 : ℚ) ≤ (-1 : ℚ) := by
  constructor
  · simp [record_value, initState, appendSample, appendTag, bucketOf, alookup]
  · norm_num

/-- C6 amended: along any operation trace whose clock readings are
nondecreasing in program order (a monotonic clock) and whose
`record_value` submissions are all non-negative, every sample ever held
by any bucket is non-negative; `end_record` samples are non-negative by
the clock alone, and only an unvalidated negative `record_value`
submission (see the counterexample) can break the invariant. -/
theorem samples_nonneg_invariant (ops : List Op) (st : State)
    (hst : samplesNonneg st)
    (hpend : startsBefore st (traceTimes ops))
    (hmono : List.Pairwise (· ≤ ·) (traceTimes ops))
    (hrec : recordsNonneg ops) :
    samplesNonneg (run st ops) := by
  induction ops generalizing st with
  | nil => exact hst
  | cons op rest ih =>
    have htt : traceTimes (op :: rest) = opTimes op ++ traceTimes rest := by
      simp [traceTimes]
    rw [htt] at hpend hmono
    rw [List.pairwise_append] at hmono
    obtain ⟨hmop, hmrest, hcross⟩ := hmono
    have hrec' : recordsNonneg rest := fun c t v hm =>
      hrec c t v (List.mem_cons_of_mem op hm)
    show samplesNonneg (run (runOp st op) rest)
    apply ih (runOp st op) ?_ ?_ hmrest hrec'
    · -- the state after one operation still has only non-negative samples
      match op with
      | Op.startOp cat tag tid tk ts =>
        by_cases hen : st.enabled = false
        · simpa [runOp, start_record, hen] using hst
        · have hen' : st.enabled = true := by
            cases h : st.enabled
            · exact absurd h hen
            · rfl
          simp only [runOp, start_record_enabled st cat tag tid tk ts hen']
          exact hst
      | Op.endOp cat tag key te =>
        rcases end_record_cases st cat tag key te with h | ⟨k, ts, hk, hl, h⟩
        · simpa [runOp, h] using hst
        · simp only [runOp, h]
          have hts : ts ≤ te := by
            have hmem := alookup_mem st.start_times k ts hl
            have hte : te ∈ opTimes (Op.endOp cat tag key te) := by
              simp [opTimes]
            exact hpend (k, ts) hmem te (List.mem_append_left _ hte)
          exact appendSample_nonneg st.data cat tag (te - ts)
            (by linarith) hst
      | Op.recordOp cat tag v =>
        by_cases hen : st.enabled = false
        · simpa [runOp, record_value, hen] using hst
        · have hv : 0 ≤ v := hrec cat tag v (List.mem_cons_self _ _)
          simp only [runOp, record_value, hen, if_neg hen]
          exact appendSample_nonneg st.data cat tag v hv hst
      | Op.enableOp => exact hst
      | Op.disableOp => exact hst
      | Op.resetOp => intro p hp; cases hp
    · -- pending instants still precede all remaining clock readings
      match op with
      | Op.startOp cat tag tid tk ts =>
        by_cases hen : st.enabled = false
        · simp only [runOp, start_record, hen, if_pos rfl]
          exact fun p hp r hr => hpend p hp r (List.mem_append_right _ hr)
        · have hen' : st.enabled = true := by
            cases h : st.enabled
            · exact absurd h hen
            · rfl
          simp only [runOp, start_record_enabled st cat tag tid tk ts hen']
          intro p hp r hr
          rcases mem_storeKey st.start_times (startKey cat tag tid tk) ts p hp
            with rfl | hp'
          · exact hcross ts (by simp [opTimes]) r hr
          · exact hpend p hp' r (List.mem_append_right _ hr)
      | Op.endOp cat tag key te =>
        rcases end_record_cases st cat tag key te with h | ⟨k, ts, hk, hl, h⟩
        · simp only [runOp, h]
          exact fun p hp r hr => hpend p hp r (List.mem_append_right _ hr)
        · simp only [runOp, h]
          exact fun p hp r hr =>
            hpend p (mem_popKey hp) r (List.mem_append_right _ hr)
      | Op.recordOp cat tag v =>
        by_cases hen : st.enabled = false
        · simp only [runOp, record_value, hen, if_pos rfl]
          exact fun p hp r hr => hpend p hp r (List.mem_append_right _ hr)
        · simp only [runOp, record_value, hen, if_neg hen]
          exact fun p hp r hr => hpend p hp r (List.mem_append_right _ hr)
      | Op.enableOp =>
        exact fun p hp r hr => hpend p hp r (List.mem_append_right _ hr)
      | Op.disableOp =>
        exact fun p hp r hr => hpend p hp r (List.mem_append_right _ hr)
      | Op.resetOp => intro p hp; cases hp

/-- Witness for C6's amended theorem on a one-submission trace. -/
theorem samples_nonneg_invariant_witness :
    samplesNonneg (run initState [Op.recordOp "c" "t" 1]) :=
  samples_nonneg_invariant [Op.recordOp "c" "t" 1] initState
    (by intro p hp; cases hp)
    (by intro p hp; cases hp)
    (by simp [traceTimes, opTimes])
    (by
      intro cat tag v hm
      simp only [List.mem_singleton, Op.recordOp.injEq] at hm
      obtain ⟨-, -, rfl⟩ := hm
      norm_num)

/-! ### C7: report formatting -/

theorem containsSub_refl (l : List Char) : containsSub l l :=
  ⟨[], [], by simp⟩

theorem containsSub_append_left (x y sub : List Char)
    (h : containsSub y sub) : containsSub (x ++ y) sub := by
  obtain ⟨a, b, hab⟩ := h
  exact ⟨x ++ a, b, by rw [hab]; simp [List.append_assoc]⟩

theorem containsSub_append_right (x y sub : List Char)
    (h : containsSub x sub) : containsSub (x ++ y) sub := by
  obtain ⟨a, b, hab⟩ := h
  exact ⟨a, b ++ y, by rw [hab]; simp [List.append_assoc]⟩

theorem containsSub_trans {l m sub : List Char} (h1 : containsSub l m)
    (h2 : containsSub m sub) : containsSub l sub := by
  obtain ⟨a, b, hab⟩ := h1
  obtain ⟨c, d, hcd⟩ := h2
  exact ⟨a ++ c, d ++ b, by rw [hab, hcd]; simp [List.append_assoc]⟩

theorem strContains_append_left (x y : String) (sub : List Char)
    (h : containsSub y.data sub) : containsSub (x ++ y).data sub := by
  rw [String.data_append]
  exact containsSub_append_left _ _ _ h

theorem strContains_append_right (x y : String) (sub : List Char)
    (h : containsSub x.data sub) : containsSub (x ++ y).data sub := by
  rw [String.data_append]
  exact containsSub_append_right _ _ _ h

theorem padRight_contains (s : String) (w : Nat) :
    containsSub (padRight s w).data s.data := by
  unfold padRight
  exact strContains_append_right _ _ _ (containsSub_refl _)

theorem statRow_contains_cat (cat tag : String) (s : Stat) :
    containsSub (statRow cat tag s).data cat.data := by
  unfold statRow
  apply strContains_append_right
  apply strContains_append_right
  apply strContains_append_right
  apply strContains_append_right
  apply strContains_append_right
  apply strContains_append_right
  apply strContains_append_right
  apply strContains_append_right
  apply strContains_append_right
  apply strContains_append_right
  exact padRight_contains cat 15

theorem statRow_contains_tag (cat tag : String) (s : Stat) :
    containsSub (statRow cat tag s).data tag.data := by
  unfold statRow
  apply strContains_append_right
  apply strContains_append_right
  apply strContains_append_right
  apply strContains_append_right
  apply strContains_append_right
  apply strContains_append_right
  apply strContains_append_right
  apply strContains_append_right
  apply strContains_append_left
  exact padRight_contains tag 15

theorem statRow_contains_avg (cat tag : String) (s : Stat) :
    containsSub (statRow cat tag s).data
      (fmt3 (s.avg_filtered * 1000)).data := by
  unfold statRow
  apply strContains_append_right
  apply strContains_append_right
  apply strContains_append_right
  apply strContains_append_right
  apply strContains_append_left
  exact padRight_contains _ 8

theorem intercalate_five (sep a b c d e : String) :
    String.intercalate sep [a, b, c, d, e] =
      a ++ sep ++ b ++ sep ++ c ++ sep ++ d ++ sep ++ e := rfl

/-- The report of a single-bucket recorder, laid out explicitly. -/
theorem generate_report_single (cat tag : String) (vs : List ℚ)
    (hne : vs ≠ []) (ts : List (String × ℚ)) (en : Bool) :
    generate_report ⟨[(cat, [(tag, vs)])], ts, en⟩ =
      eqLine ++ "\x0a" ++ headerRow ++ "\x0a" ++ dashLine ++ "\x0a" ++
        statRow cat tag (statsOf vs) ++ "\x0a" ++ eqLine := by
  have h1 : get_stats_all ⟨[(cat, [(tag, vs)])], ts, en⟩ =
      [(cat, [(tag, statsOf vs)])] := by
    simp [get_stats_all, tagStats, hne]
  rw [generate_report, h1]
  show String.intercalate "\x0a"
    ([eqLine, headerRow, dashLine] ++
      [statRow cat tag (statsOf vs)] ++ [eqLine]) = _
  exact intercalate_five _ _ _ _ _ _

theorem report_single_contains_row (cat tag : String) (vs : List ℚ)
    (hne : vs ≠ []) (ts : List (String × ℚ)) (en : Bool) (sub : List Char)
    (h : containsSub (statRow cat tag (statsOf vs)).data sub) :
    containsSub (generate_report ⟨[(cat, [(tag, vs)])], ts, en⟩).data sub := by
  rw [generate_report_single cat tag vs hne ts en]
  apply strContains_append_right
  apply strContains_append_right
  apply strContains_append_left
  exact h

theorem roundHalfEven_int (n : ℤ) : roundHalfEven ((n : ℚ)) = n := by
  simp only [roundHalfEven, Int.floor_intCast]
  norm_num

theorem fmt3_123 : fmt3 123 = "123.000" := by
  simp only [fmt3]
  rw [show ((123 : ℚ) * 1000) = ((123000 : ℤ) : ℚ) by norm_num,
    roundHalfEven_int]
  decide

theorem fmt3_two_point_five : fmt3 (5/2) = "2.500" := by
  simp only [fmt3]
  rw [show ((5 : ℚ)/2 * 1000) = ((2500 : ℤ) : ℚ) by norm_num,
    roundHalfEven_int]
  decide

theorem fmt3_four : fmt3 4 = "4.000" := by
  simp only [fmt3]
  rw [show ((4 : ℚ) * 1000) = ((4000 : ℤ) : ℚ) by norm_num,
    roundHalfEven_int]
  decide

theorem avgf_single : (statsOf [123/1000]).avg_filtered * 1000 = 123 := by
  rw [statsOf_avg_filtered]
  norm_num

theorem avgf_four :
    (statsOf [1/1000, 2/1000, 3/1000, 10/1000]).avg_filtered * 1000 = 5/2 := by
  rw [statsOf_avg_filtered]
  simp only [listMin, listMax, List.foldl]
  norm_num [min_def, max_def]

theorem avgr_four :
    (statsOf [1/1000, 2/1000, 3/1000, 10/1000]).avg_raw * 1000 = 4 := by
  rw [statsOf_avg_raw]
  norm_num

/-- C7: the Avg(ms) column renders the trimmed mean (avg_filtered)
converted to milliseconds with 3 decimals: a bucket holding the single
sample 0.123 s yields a report whose text contains "123.000" together
with the category and tag labels verbatim; and on the bucket
[0.001, 0.002, 0.003, 0.010] the Avg cell text is "2.500" (the trimmed
mean in ms) while the raw mean would render "4.000", and the report
contains the trimmed rendering. -/
theorem report_round_trip (cat tag : String) :
    containsSub (generate_report ⟨[(cat, [(tag, [123/1000])])], [], true⟩).data
      ("123.000" : String).data ∧
    containsSub (generate_report ⟨[(cat, [(tag, [123/1000])])], [], true⟩).data
      cat.data ∧
    containsSub (generate_report ⟨[(cat, [(tag, [123/1000])])], [], true⟩).data
      tag.data ∧
    fmt3 ((statsOf [1/1000, 2/1000, 3/1000, 10/1000]).avg_filtered * 1000) =
      "2.500" ∧
    fmt3 ((statsOf [1/1000, 2/1000, 3/1000, 10/1000]).avg_raw * 1000) =
      "4.000" ∧
    containsSub (generate_report
        ⟨[("C", [("T", [1/1000, 2/1000, 3/1000, 10/1000])])], [], true⟩).data
      ("2.500" : String).data := by
  have hne1 : ([123/1000] : List ℚ) ≠ [] := List.cons_ne_nil _ _
  have hne4 : ([1/1000, 2/1000, 3/1000, 10/1000] : List ℚ) ≠ [] :=
    List.cons_ne_nil _ _
  refine ⟨?_, ?_, ?_, ?_, ?_, ?_⟩
  · apply report_single_contains_row cat tag [123/1000] hne1 [] true
    have h := statRow_contains_avg cat tag (statsOf [123/1000])
    rw [avgf_single, fmt3_123] at h
    exact h
  · exact report_single_contains_row cat tag [123/1000] hne1 [] true _
      (statRow_contains_cat cat tag _)
  · exact report_single_contains_row cat tag [123/1000] hne1 [] true _
      (statRow_contains_tag cat tag _)
  · rw [avgf_four, fmt3_two_point_five]
  · rw [avgr_four, fmt3_four]
  · apply report_single_contains_row "C" "T" _ hne4 [] true
    have h := statRow_contains_avg "C" "T"
      (statsOf [1/1000, 2/1000, 3/1000, 10/1000])
    rw [avgf_four, fmt3_two_point_five] at h
    exact h

/-! ### C9: interleaved scoped timers lose no sample -/

theorem alookup_appendTag (tags : List (String × List ℚ)) (tag : String)
    (v : ℚ) :
    alookup (appendTag tags tag v) tag =
      some (((alookup tags tag).getD []) ++ [v]) := by
  induction tags with
  | nil => simp [appendTag, alookup]
  | cons p rest ih =>
    by_cases h : p.1 = tag
    · simp [appendTag, h, alookup]
    · simp only [appendTag, if_neg h, alookup, ih]

theorem alookup_appendSample (data : List (String × List (String × List ℚ)))
    (cat tag : String) (v : ℚ) :
    alookup (appendSample data cat tag v) cat =
      some (appendTag ((alookup data cat).getD []) tag v) := by
  induction data with
  | nil => simp [appendSample, alookup]
  | cons p rest ih =>
    by_cases h : p.1 = cat
    · simp [appendSample, h, alookup]
    · simp only [appendSample, if_neg h, alookup, ih]

theorem bucketOf_appendSample (data : List (String × List (String × List ℚ)))
    (cat tag : String) (v : ℚ) :
    bucketOf (appendSample data cat tag v) cat tag =
      bucketOf data cat tag ++ [v] := by
  unfold bucketOf
  rw [alookup_appendSample]
  simp only [Option.getD_some]
  rw [alookup_appendTag]
  simp only [Option.getD_some]

theorem alookup_storeKey_pres (l : List (String × ℚ)) (k k' : String) (v : ℚ)
    (h : alookup l k' ≠ none) : alookup (storeKey l k v) k' ≠ none := by
  by_cases hk : k' = k
  · subst hk
    rw [alookup_storeKey_self]
    simp
  · rw [alookup_storeKey_ne l k k' v hk]
    exact h

theorem tid_ne_of_nodup {pre post : List Thread} {th th' : Thread}
    (hnd : ((pre ++ th :: post).map Thread.tid).Nodup)
    (hmem : th' ∈ pre ∨ th' ∈ post) : th'.tid ≠ th.tid := by
  rw [List.map_append, List.map_cons, List.nodup_append] at hnd
  obtain ⟨h1, h2, hdisj⟩ := hnd
  rcases hmem with hm | hm
  · intro he
    exact hdisj (List.mem_map_of_mem Thread.tid hm)
      (he ▸ List.mem_cons_self _ _)
  · intro he
    exact (List.nodup_cons.mp h2).1 (he ▸ List.mem_map_of_mem Thread.tid hm)

/-- One interleaving step preserves the invariant. -/
theorem step_preserves_inv (cat tag : String) (M c0 N : Nat)
    {cfg1 cfg2 : State × List Thread} (hstep : Step cat tag cfg1 cfg2)
    (hinv : Inv cat tag M c0 N cfg1) : Inv cat tag M c0 N cfg2 := by
  obtain ⟨hen, hnd, hpendinv, hrem, hcount, hlen⟩ := hinv
  cases hstep with
  | start st pre post th tk ts hp hr =>
    rw [start_record_enabled st cat tag th.tid tk ts hen] at *
    refine ⟨hen, ?_, ?_, ?_, ?_, ?_⟩
    · simpa [List.map_append, List.map_cons] using hnd
    · intro th' hth' k hk
      rcases List.mem_append.mp hth' with hm | hm
      · -- a thread before the one that stepped
        have hold := hpendinv th' (List.mem_append_left _ hm) k hk
        exact ⟨hold.1, alookup_storeKey_pres _ _ _ _ hold.2.1, hold.2.2⟩
      · rcases List.mem_cons.mp hm with rfl | hm
        · -- the thread that just opened its timer
          simp only at hk
          obtain rfl := Option.some.inj hk
          refine ⟨⟨tk, rfl⟩, ?_, hr⟩
          rw [alookup_storeKey_self]
          simp
        · have hold := hpendinv th'
            (List.mem_append_right _ (List.mem_cons_of_mem th hm)) k hk
          exact ⟨hold.1, alookup_storeKey_pres _ _ _ _ hold.2.1, hold.2.2⟩
    · intro th' hth'
      rcases List.mem_append.mp hth' with hm | hm
      · exact hrem th' (List.mem_append_left _ hm)
      · rcases List.mem_cons.mp hm with rfl | hm
        · exact hrem th (List.mem_append_right _ (List.mem_cons_self th post))
        · exact hrem th' (List.mem_append_right _ (List.mem_cons_of_mem th hm))
    · simpa [List.map_append, List.map_cons] using hcount
    · simpa [List.length_append, List.length_cons] using hlen
  | finish st pre post th k te hp =>
    have hthmem : th ∈ pre ++ th :: post :=
      List.mem_append_right _ (List.mem_cons_self th post)
    obtain ⟨⟨t, hkey⟩, hlk, hr1⟩ := hpendinv th hthmem k hp
    obtain ⟨ts, hts⟩ := Option.ne_none_iff_exists'.mp hlk
    have hknil : k ≠ "" := hkey ▸ startKey_ne_empty cat tag th.tid t
    rw [end_record_found st cat tag k ts te hen hknil hts] at *
    have hthM := hrem th hthmem
    refine ⟨hen, ?_, ?_, ?_, ?_, ?_⟩
    · simpa [List.map_append, List.map_cons] using hnd
    · intro th' hth' k' hk'
      have hside : th' ∈ pre ∨ th' ∈ post := by
        rcases List.mem_append.mp hth' with hm | hm
        · exact Or.inl hm
        · rcases List.mem_cons.mp hm with rfl | hm
          · simp at hk'
          · exact Or.inr hm
      have hmem' : th' ∈ pre ++ th :: post := by
        rcases hside with hm | hm
        · exact List.mem_append_left _ hm
        · exact List.mem_append_right _ (List.mem_cons_of_mem th hm)
      have hold := hpendinv th' hmem' k' hk'
      obtain ⟨⟨t', hkey'⟩, hlk', hr1'⟩ := hold
      have htid : th'.tid ≠ th.tid := tid_ne_of_nodup hnd hside
      have hkne : k' ≠ k := by
        intro he
        rw [hkey', hkey] at he
        exact htid (startKey_components cat tag he).1
      refine ⟨⟨t', hkey'⟩, ?_, hr1'⟩
      rw [alookup_popKey_ne st.start_times k k' hkne]
      exact hlk'
    · intro th' hth'
      rcases List.mem_append.mp hth' with hm | hm
      · exact hrem th' (List.mem_append_left _ hm)
      · rcases List.mem_cons.mp hm with rfl | hm
        · exact le_trans (Nat.sub_le _ _) hthM
        · exact hrem th' (List.mem_append_right _ (List.mem_cons_of_mem th hm))
    · rw [bucketOf_appendSample, List.length_append]
      simp only [List.map_append, List.map_cons, List.sum_append,
        List.sum_cons] at hcount ⊢
      have he : M - (th.remaining - 1) = (M - th.remaining) + 1 := by omega
      rw [he, hcount]
      simp only [List.length_singleton]
      omega
    · simpa [List.length_append, List.length_cons] using hlen

/-- Any interleaving preserves the invariant. -/
theorem steps_preserve_inv (cat tag : String) (M c0 N : Nat)
    {cfg1 cfg2 : State × List Thread}
    (h : Relation.ReflTransGen (Step cat tag) cfg1 cfg2)
    (hinv : Inv cat tag M c0 N cfg1) : Inv cat tag M c0 N cfg2 := by
  induction h with
  | refl => exact hinv
  | tail _ hstep ih => exact step_preserves_inv cat tag M c0 N hstep ih

/-- C9: for any interleaving of N scoped-timer threads, each completing
M `start_record`/`end_record` pairs through its own token against one
shared enabled recorder under one (category, tag), the bucket ends with
exactly N × M new samples: none lost, none duplicated. -/
theorem concurrent_counts (cat tag : String) (M : Nat) (st0 : State)
    (thr0 : List Thread) (hen : st0.enabled = true)
    (hnd : (thr0.map Thread.tid).Nodup)
    (hinit : ∀ th ∈ thr0, th.pending = none ∧ th.remaining = M)
    (stF : State) (thrF : List Thread)
    (hsteps : Steps cat tag (st0, thr0) (stF, thrF))
    (hfin : ∀ th ∈ thrF, th.pending = none ∧ th.remaining = 0) :
    (bucketOf stF.data cat tag).length =
      (bucketOf st0.data cat tag).length + thr0.length * M := by
  have hinv0 : Inv cat tag M (bucketOf st0.data cat tag).length thr0.length
      (st0, thr0) := by
    refine ⟨hen, hnd, ?_, ?_, ?_, rfl⟩
    · intro th hth k hk
      exact absurd ((hinit th hth).1.symm.trans hk) (by simp)
    · intro th hth
      rw [(hinit th hth).2]
    · have hz : (thr0.map (fun th => M - th.remaining)).sum = 0 := by
        rw [List.sum_eq_zero]
        intro x hx
        obtain ⟨th, hth, hfx⟩ := List.mem_map.mp hx
        rw [← hfx, (hinit th hth).2, Nat.sub_self]
      simp [hz]
  have hinvF := steps_preserve_inv cat tag M
    (bucketOf st0.data cat tag).length thr0.length hsteps hinv0
  obtain ⟨-, -, -, -, hcount, hlen⟩ := hinvF
  have hsum : (thrF.map (fun th => M - th.remaining)).sum =
      thrF.length * M := by
    have hall : ∀ x ∈ thrF.map (fun th => M - th.remaining), x = M := by
      intro x hx
      obtain ⟨th, hth, hfx⟩ := List.mem_map.mp hx
      rw [← hfx, (hfin th hth).2, Nat.sub_zero]
    have := List.sum_eq_card_nsmul _ M hall
    simpa [List.length_map, smul_eq_mul, Nat.mul_comm] using this
  rw [hcount, hsum, hlen]

/-- Witness for C9: one thread, one scoped timer, concrete clocks. -/
theorem concurrent_counts_witness :
    (bucketOf (end_record (start_record initState "c" "t" 7 0 0).2 "c" "t"
          (some (startKey "c" "t" 7 0)) 0).data "c" "t").length =
      (bucketOf initState.data "c" "t").length + 1 * 1 := by
  have s1 : Step "c" "t" (initState, [⟨7, none, 1⟩])
      ((start_record initState "c" "t" 7 0 0).2,
        [⟨7, (start_record initState "c" "t" 7 0 0).1, 1⟩]) :=
    Step.start initState [] [] ⟨7, none, 1⟩ 0 0 rfl (by norm_num)
  have s2 : Step "c" "t"
      ((start_record initState "c" "t" 7 0 0).2,
        [⟨7, some (startKey "c" "t" 7 0), 1⟩])
      (end_record (start_record initState "c" "t" 7 0 0).2 "c" "t"
          (some (startKey "c" "t" 7 0)) 0,
        [⟨7, none, 0⟩]) :=
    Step.finish (start_record initState "c" "t" 7 0 0).2 [] []
      ⟨7, some (startKey "c" "t" 7 0), 1⟩ (startKey "c" "t" 7 0) 0 rfl
  exact concurrent_counts "c" "t" 1 initState [⟨7, none, 1⟩] rfl
    (by simp)
    (by intro th hth; simp at hth; rw [hth]; exact ⟨rfl, rfl⟩)
    _ [⟨7, none, 0⟩]
    (Relation.ReflTransGen.tail (Relation.ReflTransGen.tail
      Relation.ReflTransGen.refl s1) s2)
    (by intro th hth; simp at hth; rw [hth]; exact ⟨rfl, rfl⟩)

end PerfStats
